import Mathlib

/-!
Verification development for the tozny/utils-go utility library.

The development shallowly embeds the Go code under scrutiny:

* the environment-variable helpers (`MustGetenv`, `EnvOrDefault`) over an
  abstract environment `String → Option String` standing for `os.LookupEnv`;
* the JWKS fetch-and-cache helper (`JWKS.Set`) with explicit state passing,
  parameterised over the outcome of the HTTP fetch performed by `load`;
* the retry/backoff poller `Await`;
* `HashAndEncodeString` with a full BLAKE2b-256 implementation and raw
  (unpadded) base64 URL encoding;
* the lifecycle manager (`lifecycle.Manager` / `connectionmanager`) as a
  state machine over client/goroutine event traces.
-/

/-! ## Environment variable helpers (env.go)

`os.LookupEnv` is modelled as a function `String → Option String`:
`none` when the variable is unset, `some v` (possibly `some ""`) when set.
A Go `panic` is modelled as `Except.error` carrying the panic message. -/

/-- Go source: `MustGetenv` looks the variable up and panics when it is not
set, returning the associated value (even the empty string) otherwise. -/
def MustGetenv (lookupEnv : String → Option String) (env : String) :
    Except String String :=
  match lookupEnv env with
  | none =>
      Except.error
        ("Failed to find environment variable with identifier: " ++ env ++ "\n")
  | some value => Except.ok value

/-- Go source: `EnvOrDefault` returns the variable value when set, the
fallback otherwise. -/
def EnvOrDefault (lookupEnv : String → Option String)
    (key fallback : String) : String :=
  match lookupEnv key with
  | some val => val
  | none => fallback

/-! ## JWKS fetch-and-cache (databasev2/db.go)

`time.Time` values are modelled as `Option Int`: `none` is the zero
`time.Time` (so `timeout.IsZero()` is `timeIsZero`), `some t` a real
instant, measured in seconds so that `now.Add(time.Second *
time.Duration(interval))` is `now + interval`.  The HTTP fetch done by
`load` is passed in as an `Except String (List Nat)` describing what the
endpoint would answer (a key set, abstracted to a list of key ids, or a
transport/decode error). -/

structure JWKS where
  Endpoint : String
  JWKSet : List Nat
  TimeoutInterval : Int
  timeout : Option Int
  deriving Repr, DecidableEq

/-- `timeout.IsZero()` on the modelled `time.Time`. -/
def timeIsZero : Option Int → Bool
  | none => true
  | some _ => false

/-- `now.After(t)`: strictly after, and always false against the zero time
(matching Go, where `After` on the zero value compares instants). -/
def timeAfter (now : Int) : Option Int → Bool
  | none => false
  | some t => decide (t < now)

/-- Go source: `NewJWKS` leaves `JWKSet` empty and `timeout` at the zero
time. -/
def NewJWKS (endpoint : String) (timeoutInterval : Int) : JWKS :=
  { Endpoint := endpoint
    JWKSet := []
    TimeoutInterval := timeoutInterval
    timeout := none }

/-- Go source, `JWKS.Set`: when the cached expiry is zero or has passed,
fetch via `load` (here the `fetch` argument), store the set and push the
expiry `TimeoutInterval` seconds past `now`; otherwise serve the cached
set.  On a fetch error, return the error without touching the state. -/
def JWKS.Set (jwks : JWKS) (now : Int)
    (fetch : Except String (List Nat)) : JWKS × Except String (List Nat) :=
  if timeIsZero jwks.timeout || timeAfter now jwks.timeout then
    match fetch with
    | Except.error e => (jwks, Except.error ("updating set: " ++ e))
    | Except.ok set =>
        ({ jwks with
            JWKSet := set
            timeout := some (now + jwks.TimeoutInterval) },
          Except.ok set)
  else
    (jwks, Except.ok jwks.JWKSet)

/-! ## Retry with exponential backoff (retry.go)

`ready` is modelled as the stream of outcomes of its successive
invocations: `ready n` is what the `n`-th call (0-based) returns.  `Await`
returns, besides the Go function's boolean result, the number of times
`ready` was invoked and the list of the sleeps performed (in seconds, in
order), so that the claims about call counts and backoff are statable. -/

/-- The loop body of `Await`, starting at iteration `tries`.  Mirrors
`for tries := 0; tries <= maxRetries; tries++` with
`time.Sleep((1 * time.Second) << uint(tries))` between failed attempts
except after the last one. -/
def awaitFrom (ready : Nat → Bool) (maxRetries : Int) (tries : Nat) :
    Bool × Nat × List Nat :=
  if h : (tries : Int) ≤ maxRetries then
    if ready tries then
      (true, 1, [])
    else
      let rest := awaitFrom ready maxRetries (tries + 1)
      (rest.1, rest.2.1 + 1,
        if (tries : Int) = maxRetries then rest.2.2
        else (2 ^ tries) :: rest.2.2)
  else
    (false, 0, [])
termination_by (maxRetries + 1 - (tries : Int)).toNat
decreasing_by omega

/-- Go source: `Await(ready, maxRetries)`.  First component: the returned
bool; second: how many times `ready` ran; third: the sleeps performed. -/
def Await (ready : Nat → Bool) (maxRetries : Int) : Bool × Nat × List Nat :=
  awaitFrom ready maxRetries 0

example : Await (fun n => n == 1) 3 = (true, 2, [1]) := by
  simp [Await, awaitFrom]

example : Await (fun _ => false) 2 = (false, 3, [1, 2]) := by
  simp [Await, awaitFrom]

example : Await (fun _ => true) 0 = (true, 1, []) := by
  simp [Await, awaitFrom]

/-! ## Hashing (hashing.go)

`HashAndEncodeString` delegates to `golang.org/x/crypto/blake2b` (keyless
BLAKE2b with a 32-byte digest, per RFC 7693) and to Go's
`base64.RawURLEncoding` (unpadded base64url).  Both are embedded in full
below, operating on byte lists (`Nat`s below 256). -/

/-- 2^64, the modulus of BLAKE2b word arithmetic. -/
def w64 : Nat := 2 ^ 64

/-- Addition modulo 2^64. -/
def wadd (a b : Nat) : Nat := (a + b) % w64

/-- Right rotation of a 64-bit word by `n` (0 < n < 64). -/
def rotr64 (x n : Nat) : Nat := (x >>> n) ||| ((x <<< (64 - n)) % w64)

/-- The BLAKE2b initialisation vector (the SHA-512 IV). -/
def blakeIV : List Nat :=
  [0x6a09e667f3bcc908, 0xbb67ae8584caa73b, 0x3c6ef372fe94f82b,
   0xa54ff53a5f1d36f1, 0x510e527fade682d1, 0x9b05688c2b3e6c1f,
   0x1f83d9abfb41bd6b, 0x5be0cd19137e2179]

/-- The BLAKE2b message schedule (10 rows; round `i` uses row `i % 10`). -/
def blakeSigma : List (List Nat) :=
  [[0, 1, 2, 3, 4, 5, 6, 7, 8, 9, 10, 11, 12, 13, 14, 15],
   [14, 10, 4, 8, 9, 15, 13, 6, 1, 12, 0, 2, 11, 7, 5, 3],
   [11, 8, 12, 0, 5, 2, 15, 13, 10, 14, 3, 6, 7, 1, 9, 4],
   [7, 9, 3, 1, 13, 12, 11, 14, 2, 6, 5, 10, 4, 0, 15, 8],
   [9, 0, 5, 7, 2, 4, 10, 15, 14, 1, 11, 12, 6, 8, 3, 13],
   [2, 12, 6, 10, 0, 11, 8, 3, 4, 13, 7, 5, 15, 14, 1, 9],
   [12, 5, 1, 15, 14, 13, 4, 10, 0, 7, 6, 3, 9, 2, 8, 11],
   [13, 11, 7, 14, 12, 1, 3, 9, 5, 0, 15, 4, 8, 6, 2, 10],
   [6, 15, 14, 9, 11, 3, 0, 8, 12, 2, 13, 7, 1, 4, 10, 5],
   [10, 2, 8, 4, 7, 6, 1, 5, 15, 11, 9, 14, 3, 12, 13, 0]]

/-- The BLAKE2b mixing function G on the 16-word work vector. -/
def gmix (v : List Nat) (a b c d : Nat) (x y : Nat) : List Nat :=
  let va := wadd (wadd (v.getD a 0) (v.getD b 0)) x
  let v := v.set a va
  let vd := rotr64 ((v.getD d 0) ^^^ va) 32
  let v := v.set d vd
  let vc := wadd (v.getD c 0) vd
  let v := v.set c vc
  let vb := rotr64 ((v.getD b 0) ^^^ vc) 24
  let v := v.set b vb
  let va2 := wadd (wadd va vb) y
  let v := v.set a va2
  let vd2 := rotr64 (vd ^^^ va2) 16
  let v := v.set d vd2
  let vc2 := wadd vc vd2
  let v := v.set c vc2
  let vb2 := rotr64 (vb ^^^ vc2) 63
  v.set b vb2

/-- One BLAKE2b round: eight G applications (columns, then diagonals),
with message words selected by the schedule row `s`. -/
def blakeRound (m : List Nat) (v : List Nat) (s : List Nat) : List Nat :=
  let mi := fun i => m.getD (s.getD i 0) 0
  let v := gmix v 0 4 8 12 (mi 0) (mi 1)
  let v := gmix v 1 5 9 13 (mi 2) (mi 3)
  let v := gmix v 2 6 10 14 (mi 4) (mi 5)
  let v := gmix v 3 7 11 15 (mi 6) (mi 7)
  let v := gmix v 0 5 10 15 (mi 8) (mi 9)
  let v := gmix v 1 6 11 12 (mi 10) (mi 11)
  let v := gmix v 2 7 8 13 (mi 12) (mi 13)
  gmix v 3 4 9 14 (mi 14) (mi 15)

/-- The BLAKE2b compression function F: 12 rounds over `h ++ IV` with the
offset counter `t` folded into v12/v13 and the finalisation flag into v14. -/
def blakeCompress (h : List Nat) (m : List Nat) (t : Nat) (final : Bool) :
    List Nat :=
  let v0 := h ++ blakeIV
  let v1 := v0.set 12 ((v0.getD 12 0) ^^^ (t % w64))
  let v2 := v1.set 13 ((v1.getD 13 0) ^^^ (t / w64 % w64))
  let v3 := if final then v2.set 14 ((v2.getD 14 0) ^^^ (w64 - 1)) else v2
  let vr := (List.range 12).foldl
    (fun v i => blakeRound m v (blakeSigma.getD (i % 10) [])) v3
  (List.range 8).map
    (fun i => (h.getD i 0) ^^^ (vr.getD i 0) ^^^ (vr.getD (i + 8) 0))

/-- A little-endian 64-bit word from up to eight bytes. -/
def leWord (bytes : List Nat) : Nat :=
  bytes.foldr (fun b acc => acc * 256 + b % 256) 0

/-- The sixteen little-endian message words of a 128-byte block. -/
def msgWords (block : List Nat) : List Nat :=
  (List.range 16).map (fun i => leWord ((block.drop (8 * i)).take 8))

/-- Zero-pad a final block to the 128-byte block size. -/
def padBlock (b : List Nat) : List Nat :=
  b ++ List.replicate (128 - b.length) 0

/-- Split a message into 128-byte blocks, keeping the trailing (possibly
full, possibly empty) block as the final one, as the streaming Go
implementation does with its buffer. -/
def chunksAux : List Nat → List Nat → List (List Nat)
  | [], acc => [acc]
  | b :: rest, acc =>
    if acc.length == 128 then acc :: chunksAux rest [b]
    else chunksAux rest (acc ++ [b])

/-- The block sequence of a message (always nonempty). -/
def blakeChunks (data : List Nat) : List (List Nat) := chunksAux data []

/-- Compress the block sequence: interior blocks advance the counter by the
block size; the final block advances it by its true length and sets the
finalisation flag. -/
def blakeRun (h : List Nat) (t : Nat) : List (List Nat) → List Nat
  | [] => h
  | [b] => blakeCompress h (msgWords (padBlock b)) (t + b.length) true
  | b :: rest => blakeRun (blakeCompress h (msgWords b) (t + 128) false) (t + 128) rest

/-- The initial state for a keyless digest of `digestSize` bytes:
`h0 ^= 0x01010000 | digestSize`. -/
def blakeInitH (digestSize : Nat) : List Nat :=
  blakeIV.set 0 ((blakeIV.getD 0 0) ^^^ (0x01010000 ||| digestSize))

/-- The eight little-endian bytes of a 64-bit word. -/
def wordLEBytes (w : Nat) : List Nat :=
  [w % 256, w / 256 % 256, w / 256 ^ 2 % 256, w / 256 ^ 3 % 256,
   w / 256 ^ 4 % 256, w / 256 ^ 5 % 256, w / 256 ^ 6 % 256, w / 256 ^ 7 % 256]

/-- The keyless BLAKE2b digest of `digestSize` bytes of a byte string. -/
def blake2bSum (digestSize : Nat) (data : List Nat) : List Nat :=
  (((blakeRun (blakeInitH digestSize) 0 (blakeChunks data)).map
      wordLEBytes).flatten).take digestSize

/-- `blake2b.New(size, nil)`: errors exactly on an invalid digest size. -/
def blake2bNew (size : Nat) : Except String Unit :=
  if size < 1 || 64 < size then Except.error "blake2b: invalid hash size"
  else Except.ok ()

/-- The base64url alphabet (RFC 4648 section 5). -/
def b64urlAlphabet : List Char :=
  "ABCDEFGHIJKLMNOPQRSTUVWXYZabcdefghijklmnopqrstuvwxyz0123456789-_".toList

/-- The base64url character of a 6-bit group. -/
def b64Char (n : Nat) : Char := b64urlAlphabet.getD n (Char.ofNat 65)

/-- Go's `base64.RawURLEncoding.EncodeToString`: unpadded base64url of a
byte string. -/
def rawURLEncode : List Nat → List Char
  | [] => []
  | [b1] => [b64Char (b1 / 4), b64Char (b1 % 4 * 16)]
  | [b1, b2] =>
      [b64Char (b1 / 4), b64Char (b1 % 4 * 16 + b2 / 16),
       b64Char (b2 % 16 * 4)]
  | b1 :: b2 :: b3 :: rest =>
      b64Char (b1 / 4) :: b64Char (b1 % 4 * 16 + b2 / 16) ::
      b64Char (b2 % 16 * 4 + b3 / 64) :: b64Char (b3 % 64) ::
      rawURLEncode rest

/-- The UTF-8 bytes of a string (Go strings are UTF-8 byte slices). -/
def strBytes (s : String) : List Nat :=
  s.toUTF8.toList.map (fun b => b.toNat)

/-- Go source, `HashAndEncodeString`: create a keyless 32-byte BLAKE2b
hash (whose only error case is an invalid size), write the string into it
(`Write` on the BLAKE2b digest never errors), and return the unpadded
base64url of the digest together with the (nil) write error. -/
def HashAndEncodeString (toHash : String) : Except String String :=
  match blake2bNew 32 with
  | Except.error e => Except.error e
  | Except.ok _ =>
      Except.ok (String.mk (rawURLEncode (blake2bSum 32 (strBytes toHash))))


/-! ## Lifecycle manager (lifecycle/manager.go, connectionmanager)

The manager is a small concurrency coordinator.  Its channel operations
serialise all interactions, so it is embedded as a state machine driven by
a trace of atomic events: the client calls (`ManageClose`,
`ManageInitialization`, `ManageLifecycle`, `Close`) and the scheduler
events that complete a spawned goroutine (an `Initialize` call or a queued
close function finishing).  Closers and initializers are identified by
`Nat` ids; a completion event carries the (ignored) value the hook
computed, which lets the absence of a failure-handling policy be stated.

The state mirrors the Go objects:

* `closers` — the `closers` slice accumulated by the collector goroutine
  (the functions received on `closerChan` before shutdown);
* `shutdown` — whether the `shutdown` channel rendezvous has happened
  (the collector loop has exited);
* `running` — close goroutines spawned at shutdown, not yet finished;
* `ranClosers` — close goroutines that have finished;
* `stopwg` — the `stopwg` counter (`Add(1)` per queued closer, `Done()`
  per finished close goroutine): `Close` returns exactly when `shutdown`
  has happened and `stopwg = 0`;
* `started` — every `Initialize` goroutine ever spawned;
* `runningInits` — spawned `Initialize` goroutines not yet finished;
* `doneInits` — finished `Initialize` goroutines;
* `wg` — the `WG` counter (`Add(1)` per spawn, `Done()` per finish):
  `WG.Wait()` returns exactly when `wg = 0`;
* `lcStarted` — the `Initialize` spawns that came from `ManageLifecycle`
  (`ManageConnection`), to state its queue-close-first ordering. -/

structure MState where
  closers : List Nat
  shutdown : Bool
  running : List Nat
  ranClosers : List Nat
  stopwg : Nat
  started : List Nat
  runningInits : List Nat
  doneInits : List Nat
  wg : Nat
  lcStarted : List Nat
  deriving Repr, DecidableEq

/-- The events driving the manager: the four exported calls, plus the
scheduler completing a spawned goroutine.  Completion events carry the
value the hook computed (Go: nothing — `Initialize()` and `CloseFunc`
return no error), which the manager ignores. -/
inductive Ev where
  | manageClose (cs : List Nat)
  | manageInit (is : List Nat)
  | manageLifecycle (xs : List Nat)
  | close
  | initDone (i : Nat) (r : Nat)
  | closerDone (c : Nat) (r : Nat)
  deriving Repr, DecidableEq

/-- The collector receives one close function on `closerChan`:
`stopwg.Add(1); closers = append(closers, c)`. -/
def enqueueClose (s : MState) (c : Nat) : MState :=
  { s with closers := s.closers ++ [c], stopwg := s.stopwg + 1 }

/-- `ManageInitialization` handles one item: `WG.Add(1)` and spawn its
`Initialize` goroutine immediately.  `lc` records whether the spawn came
through `ManageLifecycle`. -/
def startInit (lc : Bool) (s : MState) (i : Nat) : MState :=
  { s with
      wg := s.wg + 1
      started := s.started ++ [i]
      runningInits := s.runningInits ++ [i]
      lcStarted := if lc then s.lcStarted ++ [i] else s.lcStarted }

/-- The loop of `ManageClose`.  After shutdown the collector loop has
exited, so the send on `closerChan` blocks forever: the call makes no
further progress and none of the remaining items is queued. -/
def manageCloseRun (s : MState) : List Nat → MState
  | [] => s
  | c :: cs => if s.shutdown then s else manageCloseRun (enqueueClose s c) cs

/-- The loop of `ManageInitialization`: every item is spawned, shutdown or
not (nothing in the Go code guards it). -/
def manageInitRun (lc : Bool) (s : MState) : List Nat → MState
  | [] => s
  | i :: is => manageInitRun lc (startInit lc s i) is

/-- The loop of `ManageLifecycle` (`ManageConnection`): for each item,
`ManageClose(ic)` then `ManageInitialization(ic)`.  After shutdown the
inner `ManageClose` blocks forever, so the item's `Initialize` is never
reached either. -/
def manageLifecycleRun (s : MState) : List Nat → MState
  | [] => s
  | x :: xs =>
    if s.shutdown then s
    else manageLifecycleRun (startInit true (enqueueClose s x) x) xs

/-- `Close`: the rendezvous on the `shutdown` channel makes the collector
exit its loop and spawn every queued close function in its own goroutine;
`Close` then blocks in `stopwg.Wait()`.  A second `Close` blocks forever
(nobody receives on `shutdown` any more) and changes nothing. -/
def closeStep (s : MState) : MState :=
  if s.shutdown then s
  else { s with shutdown := true, running := s.closers }

/-- A spawned close goroutine finishes: `c(); stopwg.Done()`. -/
def closerDoneStep (s : MState) (c : Nat) : MState :=
  if s.shutdown = true ∧ c ∈ s.running then
    { s with
        running := s.running.erase c
        ranClosers := s.ranClosers ++ [c]
        stopwg := s.stopwg - 1 }
  else s

/-- A spawned `Initialize` goroutine finishes: `i.Initialize(); WG.Done()`. -/
def initDoneStep (s : MState) (i : Nat) : MState :=
  if i ∈ s.runningInits then
    { s with
        runningInits := s.runningInits.erase i
        doneInits := s.doneInits ++ [i]
        wg := s.wg - 1 }
  else s

/-- One event of the manager state machine.  The result payload of a
completion event is ignored: the hooks have no way to report anything. -/
def step (s : MState) : Ev → MState
  | Ev.manageClose cs => manageCloseRun s cs
  | Ev.manageInit is => manageInitRun false s is
  | Ev.manageLifecycle xs => manageLifecycleRun s xs
  | Ev.close => closeStep s
  | Ev.initDone i _ => initDoneStep s i
  | Ev.closerDone c _ => closerDoneStep s c

/-- Run a trace of events. -/
def run (s : MState) (evs : List Ev) : MState := evs.foldl step s

/-- The state `NewManager` returns: nothing queued, nothing spawned,
both wait-group counters at zero, not shut down. -/
def initialMState : MState :=
  { closers := []
    shutdown := false
    running := []
    ranClosers := []
    stopwg := 0
    started := []
    runningInits := []
    doneInits := []
    wg := 0
    lcStarted := [] }

/-- Erase the value a completion event carries: what remains is the event
shape the manager can actually observe. -/
def stripR : Ev → Ev
  | Ev.initDone i _ => Ev.initDone i 0
  | Ev.closerDone c _ => Ev.closerDone c 0
  | e => e

/-- The inductive invariant of the manager state machine:

* before shutdown no close goroutine exists and `stopwg` counts the queued
  closers;
* after shutdown the queued closers are exactly the running plus the
  finished close goroutines (counted with multiplicity) and `stopwg`
  counts the running ones;
* `wg` counts the running `Initialize` goroutines, and every started one
  is either running or done (with multiplicity);
* every `Initialize` started through `ManageLifecycle` has its close
  function queued. -/
def MInv (s : MState) : Prop :=
  (s.shutdown = false → s.running = [] ∧ s.ranClosers = [] ∧
      s.stopwg = s.closers.length) ∧
  (s.shutdown = true →
      (∀ x, s.closers.count x = s.running.count x + s.ranClosers.count x) ∧
      s.stopwg = s.running.length) ∧
  s.wg = s.runningInits.length ∧
  (∀ x, s.started.count x = s.runningInits.count x + s.doneInits.count x) ∧
  (∀ x, s.lcStarted.count x ≤ s.closers.count x)

/-! ### Basic facts about the manager state machine -/

theorem minv_initial : MInv initialMState := by
  simp [MInv, initialMState]

theorem shutdown_enqueueClose (s : MState) (c : Nat) :
    (enqueueClose s c).shutdown = s.shutdown := rfl

theorem shutdown_startInit (lc : Bool) (s : MState) (i : Nat) :
    (startInit lc s i).shutdown = s.shutdown := rfl

theorem shutdown_manageCloseRun (s : MState) (cs : List Nat) :
    (manageCloseRun s cs).shutdown = s.shutdown := by
  induction cs generalizing s with
  | nil => rfl
  | cons c cs ih =>
    cases hsd : s.shutdown with
    | true => simp [manageCloseRun, hsd]
    | false => simp [manageCloseRun, hsd, ih, enqueueClose]

theorem shutdown_manageInitRun (lc : Bool) (s : MState) (is : List Nat) :
    (manageInitRun lc s is).shutdown = s.shutdown := by
  induction is generalizing s with
  | nil => rfl
  | cons i is ih => simp [manageInitRun, ih, startInit]

theorem shutdown_manageLifecycleRun (s : MState) (xs : List Nat) :
    (manageLifecycleRun s xs).shutdown = s.shutdown := by
  induction xs generalizing s with
  | nil => rfl
  | cons x xs ih =>
    cases hsd : s.shutdown with
    | true => simp [manageLifecycleRun, hsd]
    | false => simp [manageLifecycleRun, hsd, ih, startInit, enqueueClose]

theorem count_app_singleton (l : List Nat) (a x : Nat) :
    (l ++ [a]).count x = l.count x + if a = x then 1 else 0 := by
  simp [List.count_append, List.count_singleton']

theorem count_erase_eq (l : List Nat) (a x : Nat) :
    (l.erase a).count x = l.count x - if a = x then 1 else 0 := by
  simp [List.count_erase]

theorem minv_enqueueClose {s : MState} {c : Nat} (hsd : s.shutdown = false)
    (h : MInv s) : MInv (enqueueClose s c) := by
  obtain ⟨h1, _, h3, h4, h5⟩ := h
  obtain ⟨hrun, hran, hsw⟩ := h1 hsd
  refine ⟨?_, ?_, h3, h4, ?_⟩
  · intro _
    refine ⟨hrun, hran, ?_⟩
    simp [enqueueClose, hsw]
  · intro hc
    simp only [enqueueClose] at hc
    rw [hsd] at hc
    cases hc
  · intro x
    have hx := h5 x
    simp only [enqueueClose, count_app_singleton]
    split <;> omega

theorem minv_startInit {s : MState} {i : Nat} {lc : Bool}
    (hlc : lc = true → s.lcStarted.count i < s.closers.count i)
    (h : MInv s) : MInv (startInit lc s i) := by
  obtain ⟨h1, h2, h3, h4, h5⟩ := h
  refine ⟨h1, h2, ?_, ?_, ?_⟩
  · simp [startInit, h3]
  · intro x
    have hx := h4 x
    simp only [startInit, count_app_singleton]
    split <;> omega
  · intro x
    have hx := h5 x
    cases lc with
    | false => simpa [startInit] using hx
    | true =>
      have hi := hlc rfl
      show (s.lcStarted ++ [i]).count x ≤ s.closers.count x
      rw [count_app_singleton]
      rcases eq_or_ne i x with hix | hix
      · subst hix
        split <;> omega
      · split <;> omega

theorem minv_manageCloseRun {s : MState} (cs : List Nat)
    (h : MInv s) : MInv (manageCloseRun s cs) := by
  induction cs generalizing s with
  | nil => exact h
  | cons c cs ih =>
    cases hsd : s.shutdown with
    | true => simpa [manageCloseRun, hsd] using h
    | false =>
      simp only [manageCloseRun, hsd]
      simp only [Bool.false_eq_true, if_false]
      exact ih (minv_enqueueClose hsd h)

theorem minv_manageInitRun {s : MState} (lc : Bool) (is : List Nat)
    (hlc : lc = false) (h : MInv s) : MInv (manageInitRun lc s is) := by
  subst hlc
  induction is generalizing s with
  | nil => exact h
  | cons i is ih =>
    simp only [manageInitRun]
    exact ih (minv_startInit (by simp) h)

theorem minv_manageLifecycleRun {s : MState} (xs : List Nat)
    (h : MInv s) : MInv (manageLifecycleRun s xs) := by
  induction xs generalizing s with
  | nil => exact h
  | cons x xs ih =>
    cases hsd : s.shutdown with
    | true => simpa [manageLifecycleRun, hsd] using h
    | false =>
      simp only [manageLifecycleRun, hsd, Bool.false_eq_true, if_false]
      refine ih (minv_startInit ?_ (minv_enqueueClose hsd h))
      intro _
      have hx := h.2.2.2.2 x
      show s.lcStarted.count x < (s.closers ++ [x]).count x
      rw [count_app_singleton]
      split <;> omega

theorem minv_closeStep {s : MState} (h : MInv s) : MInv (closeStep s) := by
  cases hsd : s.shutdown with
  | true => simpa [closeStep, hsd] using h
  | false =>
    obtain ⟨h1, _, h3, h4, h5⟩ := h
    obtain ⟨hrun, hran, hsw⟩ := h1 hsd
    simp only [closeStep, hsd, Bool.false_eq_true, if_false]
    refine ⟨?_, ?_, h3, h4, h5⟩
    · intro hc; cases hc
    · intro _
      refine ⟨?_, ?_⟩
      · intro x; simp [hran]
      · simp [hsw]

theorem minv_closerDoneStep {s : MState} (c : Nat)
    (h : MInv s) : MInv (closerDoneStep s c) := by
  by_cases hg : s.shutdown = true ∧ c ∈ s.running
  · obtain ⟨hsd, hc⟩ := hg
    obtain ⟨h1, h2, h3, h4, h5⟩ := h
    obtain ⟨hcount, hsw⟩ := h2 hsd
    simp only [closerDoneStep, if_pos (And.intro hsd hc)]
    refine ⟨?_, ?_, h3, h4, h5⟩
    · intro hfalse; rw [hsd] at hfalse; cases hfalse
    · intro _
      refine ⟨?_, ?_⟩
      · intro x
        have hcp : 0 < s.running.count c := List.count_pos_iff.mpr hc
        show s.closers.count x =
          (s.running.erase c).count x + (s.ranClosers ++ [c]).count x
        rw [count_erase_eq, count_app_singleton]
        rcases eq_or_ne c x with hcx | hcx
        · subst hcx
          have hx := hcount c
          split <;> omega
        · have hx := hcount x
          split <;> omega
      · show s.stopwg - 1 = (s.running.erase c).length
        rw [List.length_erase_of_mem hc]
        omega
  · simp only [closerDoneStep, if_neg hg]
    exact h

theorem minv_initDoneStep {s : MState} (i : Nat)
    (h : MInv s) : MInv (initDoneStep s i) := by
  by_cases hg : i ∈ s.runningInits
  · obtain ⟨h1, h2, h3, h4, h5⟩ := h
    simp only [initDoneStep, if_pos hg]
    refine ⟨h1, h2, ?_, ?_, h5⟩
    · show s.wg - 1 = (s.runningInits.erase i).length
      rw [List.length_erase_of_mem hg]
      omega
    · intro x
      have hip : 0 < s.runningInits.count i := List.count_pos_iff.mpr hg
      show s.started.count x =
        (s.runningInits.erase i).count x + (s.doneInits ++ [i]).count x
      rw [count_erase_eq, count_app_singleton]
      rcases eq_or_ne i x with hix | hix
      · subst hix
        have hx := h4 i
        split <;> omega
      · have hx := h4 x
        split <;> omega
  · simp only [initDoneStep, if_neg hg]
    exact h

theorem minv_step {s : MState} (e : Ev) (h : MInv s) : MInv (step s e) := by
  cases e with
  | manageClose cs => exact minv_manageCloseRun cs h
  | manageInit is => exact minv_manageInitRun false is rfl h
  | manageLifecycle xs => exact minv_manageLifecycleRun xs h
  | close => exact minv_closeStep h
  | initDone i r => exact minv_initDoneStep i h
  | closerDone c r => exact minv_closerDoneStep c h

theorem minv_run {s : MState} (evs : List Ev) (h : MInv s) : MInv (run s evs) := by
  induction evs generalizing s with
  | nil => exact h
  | cons e evs ih => exact ih (minv_step e h)

theorem minv_reachable (evs : List Ev) : MInv (run initialMState evs) :=
  minv_run evs minv_initial

/-! ## Claim theorems: environment helpers and JWKS -/

/-- Claim C7: the environment helpers treat a variable as missing exactly
when it is unset, not when it is empty: `MustGetenv` panics if and only if
the variable is unset and otherwise returns the associated value (the
empty string included), and `EnvOrDefault` returns the variable's value
whenever it is set (the empty string included) and the fallback
otherwise. -/
theorem env_missing_iff_unset (lookupEnv : String → Option String)
    (env key fallback : String) :
    ((∃ msg, MustGetenv lookupEnv env = Except.error msg) ↔ lookupEnv env = none) ∧
    (∀ v, lookupEnv env = some v → MustGetenv lookupEnv env = Except.ok v) ∧
    (∀ v, lookupEnv key = some v → EnvOrDefault lookupEnv key fallback = v) ∧
    (lookupEnv key = none → EnvOrDefault lookupEnv key fallback = fallback) := by
  refine ⟨⟨?_, ?_⟩, ?_, ?_, ?_⟩
  · rintro ⟨msg, hmsg⟩
    cases h : lookupEnv env with
    | none => rfl
    | some v => rw [MustGetenv, h] at hmsg; cases hmsg
  · intro h
    exact ⟨_, by rw [MustGetenv, h]⟩
  · intro v h
    rw [MustGetenv, h]
  · intro v h
    rw [EnvOrDefault, h]
  · intro h
    rw [EnvOrDefault, h]

theorem env_missing_iff_unset_witness :
    MustGetenv (fun k => if k = "SET_EMPTY" then some "" else none)
      "SET_EMPTY" = Except.ok "" ∧
    EnvOrDefault (fun k => if k = "SET_EMPTY" then some "" else none)
      "SET_EMPTY" "fallback" = "" ∧
    EnvOrDefault (fun k => if k = "SET_EMPTY" then some "" else none)
      "UNSET" "fallback" = "fallback" := by
  have h1 := env_missing_iff_unset
    (fun k => if k = "SET_EMPTY" then some "" else none) "SET_EMPTY" "SET_EMPTY" "fallback"
  have h2 := env_missing_iff_unset
    (fun k => if k = "SET_EMPTY" then some "" else none) "SET_EMPTY" "UNSET" "fallback"
  exact ⟨h1.2.1 "" (by simp), h1.2.2.1 "" (by simp), h2.2.2.2 (by simp)⟩

/-- Claim C2: `JWKS.Set` caches with a simple TTL.  While the stored expiry
is a real instant that has not passed, `Set` serves the in-memory set,
changes nothing and never consults the endpoint (the result is the same
for every possible fetch outcome).  When no fetch has happened yet (the
expiry is the zero time) or the current time is strictly after the expiry,
it fetches, stores the fetched set and moves the expiry to
`TimeoutInterval` seconds past `now`. -/
theorem jwksSet_ttl_cache (jwks : JWKS) (now : Int) :
    (∀ t, jwks.timeout = some t → now ≤ t →
      ∀ fetch, JWKS.Set jwks now fetch = (jwks, Except.ok jwks.JWKSet)) ∧
    ((jwks.timeout = none ∨ ∃ t, jwks.timeout = some t ∧ t < now) →
      ∀ ks, JWKS.Set jwks now (Except.ok ks) =
        ({ jwks with
            JWKSet := ks
            timeout := some (now + jwks.TimeoutInterval) },
          Except.ok ks)) := by
  constructor
  · intro t ht hle fetch
    rw [JWKS.Set.eq_def, ht]
    simp [timeIsZero, timeAfter, not_lt.mpr hle]
  · rintro (hz | ⟨t, ht, hlt⟩) ks
    · rw [JWKS.Set.eq_def, hz]
      simp [timeIsZero]
    · rw [JWKS.Set.eq_def, ht]
      simp [timeIsZero, timeAfter, hlt]

theorem jwksSet_ttl_cache_witness :
    JWKS.Set ⟨"https://ep/jwks", [1], 60, some 100⟩ 50 (Except.error "down") =
      (⟨"https://ep/jwks", [1], 60, some 100⟩, Except.ok [1]) ∧
    JWKS.Set ⟨"https://ep/jwks", [1], 60, some 100⟩ 101 (Except.ok [2]) =
      (⟨"https://ep/jwks", [2], 60, some 161⟩, Except.ok [2]) := by
  have h := jwksSet_ttl_cache ⟨"https://ep/jwks", [1], 60, some 100⟩ 50
  have h2 := jwksSet_ttl_cache ⟨"https://ep/jwks", [1], 60, some 100⟩ 101
  refine ⟨h.1 100 rfl (by decide) (Except.error "down"), ?_⟩
  have := h2.2 (Or.inr ⟨100, rfl, by decide⟩) [2]
  simpa using this

/-- Claim C9: `JWKS.Set` is atomic on failure.  When the cache is stale
(zero or passed expiry) and the fetch fails, `Set` returns a non-nil
error and leaves the whole `JWKS` state — cached set and stored expiry —
unchanged, and the staleness persists at every later instant, so the next
call attempts the fetch again instead of serving the old set as fresh. -/
theorem jwksSet_fetch_error_atomic (jwks : JWKS) (now now2 : Int) (e : String) :
    (jwks.timeout = none ∨ ∃ t, jwks.timeout = some t ∧ t < now) →
    (JWKS.Set jwks now (Except.error e) =
        (jwks, Except.error ("updating set: " ++ e)) ∧
      (now ≤ now2 →
        (jwks.timeout = none ∨ ∃ t, jwks.timeout = some t ∧ t < now2))) := by
  rintro (hz | ⟨t, ht, hlt⟩)
  · constructor
    · rw [JWKS.Set.eq_def, hz]
      simp [timeIsZero]
    · intro _
      exact Or.inl hz
  · constructor
    · rw [JWKS.Set.eq_def, ht]
      simp [timeIsZero, timeAfter, hlt]
    · intro hle
      exact Or.inr ⟨t, ht, lt_of_lt_of_le hlt hle⟩

theorem jwksSet_fetch_error_atomic_witness :
    JWKS.Set ⟨"https://ep/jwks", [1], 60, some 100⟩ 200 (Except.error "dial tcp") =
      (⟨"https://ep/jwks", [1], 60, some 100⟩,
        Except.error ("updating set: " ++ "dial tcp")) := by
  have h := jwksSet_fetch_error_atomic ⟨"https://ep/jwks", [1], 60, some 100⟩
    200 300 "dial tcp" (Or.inr ⟨100, rfl, by decide⟩)
  exact h.1

/-! ## Claim theorems: retry with exponential backoff -/

theorem awaitFrom_stop (ready : Nat → Bool) (mr t : Nat) (htm : mr < t) :
    awaitFrom ready (mr : Int) t = (false, 0, []) := by
  rw [awaitFrom.eq_def]
  rw [dif_neg (show ¬ ((t : Int) ≤ (mr : Int)) from by exact_mod_cast not_le.mpr htm)]

theorem awaitFrom_step_success (ready : Nat → Bool) (mr t : Nat)
    (htm : t ≤ mr) (hr : ready t = true) :
    awaitFrom ready (mr : Int) t = (true, 1, []) := by
  rw [awaitFrom.eq_def]
  rw [dif_pos (show ((t : Int) ≤ (mr : Int)) from by exact_mod_cast htm)]
  rw [hr]
  simp

theorem awaitFrom_step_fail (ready : Nat → Bool) (mr t : Nat)
    (htm : t ≤ mr) (hr : ready t = false) :
    awaitFrom ready (mr : Int) t =
      ((awaitFrom ready (mr : Int) (t + 1)).1,
       (awaitFrom ready (mr : Int) (t + 1)).2.1 + 1,
       if t = mr then (awaitFrom ready (mr : Int) (t + 1)).2.2
       else 2 ^ t :: (awaitFrom ready (mr : Int) (t + 1)).2.2) := by
  rw [awaitFrom.eq_def]
  rw [dif_pos (show ((t : Int) ≤ (mr : Int)) from by exact_mod_cast htm)]
  rw [hr]
  simp [Nat.cast_inj]

theorem awaitFrom_all_fail (ready : Nat → Bool) (mr : Nat) (t : Nat)
    (ht : t ≤ mr + 1) (hf : ∀ i, t ≤ i → i ≤ mr → ready i = false) :
    awaitFrom ready (mr : Int) t =
      (false, mr + 1 - t, (List.range' t (mr - t)).map (fun u => 2 ^ u)) := by
  by_cases htm : t ≤ mr
  · rw [awaitFrom_step_fail ready mr t htm (hf t le_rfl htm)]
    rw [awaitFrom_all_fail ready mr (t + 1) (by omega)
      (fun i h1 h2 => hf i (by omega) h2)]
    simp only [Prod.mk.injEq]
    refine ⟨trivial, by omega, ?_⟩
    by_cases hteq : t = mr
    · subst hteq
      simp
    · rw [if_neg hteq]
      have hmt : mr - t = (mr - (t + 1)) + 1 := by omega
      rw [hmt, List.range'_succ]
      simp
  · have hteq : t = mr + 1 := by omega
    subst hteq
    rw [awaitFrom_stop ready mr (mr + 1) (by omega)]
    simp
termination_by mr + 1 - t

theorem awaitFrom_first_success (ready : Nat → Bool) (mr i : Nat) (t : Nat)
    (hti : t ≤ i) (hi : i ≤ mr) (hr : ready i = true)
    (hf : ∀ j, t ≤ j → j < i → ready j = false) :
    awaitFrom ready (mr : Int) t =
      (true, i + 1 - t, (List.range' t (i - t)).map (fun u => 2 ^ u)) := by
  by_cases hteq : t = i
  · subst hteq
    rw [awaitFrom_step_success ready mr t hi hr]
    simp
  · have htlt : t < i := by omega
    have htm : t ≤ mr := by omega
    rw [awaitFrom_step_fail ready mr t htm (hf t le_rfl htlt)]
    rw [awaitFrom_first_success ready mr i (t + 1) (by omega) hi hr
      (fun j h1 h2 => hf j (by omega) h2)]
    simp only [Prod.mk.injEq]
    refine ⟨trivial, by omega, ?_⟩
    rw [if_neg (by omega)]
    have hit : i - t = (i - (t + 1)) + 1 := by omega
    rw [hit, List.range'_succ]
    simp
termination_by i - t

theorem awaitFrom_calls_le (ready : Nat → Bool) (mr : Nat) (t : Nat) :
    (awaitFrom ready (mr : Int) t).2.1 ≤ mr + 1 - t := by
  by_cases htm : t ≤ mr
  · cases hready : ready t with
    | true =>
      rw [awaitFrom_step_success ready mr t htm hready]
      show 1 ≤ mr + 1 - t
      omega
    | false =>
      rw [awaitFrom_step_fail ready mr t htm hready]
      have := awaitFrom_calls_le ready mr (t + 1)
      show (awaitFrom ready (mr : Int) (t + 1)).2.1 + 1 ≤ mr + 1 - t
      omega
  · rw [awaitFrom_stop ready mr t (by omega)]
    simp
termination_by mr + 1 - t

/-- Claim C6: for every ready function and every `maxRetries ≥ 0`,
`Await(ready, maxRetries)` polls with retry and exponential backoff: it
invokes `ready` at most `maxRetries + 1` times; it returns true with
`i + 1` invocations as soon as the first successful invocation is the
`i`-th one; it returns false after `maxRetries + 1` invocations when every
invocation fails; and between consecutive failed attempts it sleeps
`2 ^ tries` seconds (doubling each time: 1s, 2s, 4s, …), with no sleep
after the final attempt. -/
theorem await_retry_backoff (ready : Nat → Bool) (mr : Nat) :
    (Await ready (mr : Int)).2.1 ≤ mr + 1 ∧
    (∀ i, i ≤ mr → ready i = true → (∀ j, j < i → ready j = false) →
      Await ready (mr : Int) =
        (true, i + 1, (List.range i).map (fun u => 2 ^ u))) ∧
    ((∀ i, i ≤ mr → ready i = false) →
      Await ready (mr : Int) =
        (false, mr + 1, (List.range mr).map (fun u => 2 ^ u))) := by
  refine ⟨?_, ?_, ?_⟩
  · have := awaitFrom_calls_le ready mr 0
    simpa [Await] using this
  · intro i hi hr hf
    have := awaitFrom_first_success ready mr i 0 (Nat.zero_le i) hi hr
      (fun j _ hj => hf j hj)
    simpa [Await, List.range_eq_range'] using this
  · intro hf
    have := awaitFrom_all_fail ready mr 0 (Nat.zero_le (mr + 1))
      (fun i _ hi => hf i hi)
    simpa [Await, List.range_eq_range'] using this

theorem await_retry_backoff_witness :
    Await (fun n => n == 1) ((3 : Nat) : Int) = (true, 2, [1]) := by
  have h := (await_retry_backoff (fun n => n == 1) 3).2.1 1 (by omega) (by decide)
    (fun j hj => by
      have hj0 : j = 0 := by omega
      subst hj0
      rfl)
  simpa using h

/-! ## Claim theorems: hashing -/

theorem rawURLEncode_length :
    ∀ l : List Nat, (rawURLEncode l).length = (4 * l.length + 2) / 3
  | [] => by simp [rawURLEncode]
  | [b1] => by simp [rawURLEncode]
  | [b1, b2] => by simp [rawURLEncode]
  | b1 :: b2 :: b3 :: rest => by
    have ih := rawURLEncode_length rest
    simp only [rawURLEncode, List.length_cons, ih]
    omega

theorem blakeCompress_length (h m : List Nat) (t : Nat) (f : Bool) :
    (blakeCompress h m t f).length = 8 := by
  simp [blakeCompress]

theorem blakeRun_length :
    ∀ (bs : List (List Nat)) (h : List Nat) (t : Nat), bs ≠ [] →
      (blakeRun h t bs).length = 8
  | [], _, _, hne => absurd rfl hne
  | [b], h, t, _ => by
    simp only [blakeRun]
    exact blakeCompress_length _ _ _ _
  | b :: b2 :: rest, h, t, _ => by
    simp only [blakeRun]
    exact blakeRun_length (b2 :: rest) _ _ (by simp)

theorem chunksAux_ne_nil : ∀ (l acc : List Nat), chunksAux l acc ≠ []
  | [], acc => by simp [chunksAux]
  | b :: rest, acc => by
    rw [chunksAux]
    split
    · simp
    · exact chunksAux_ne_nil rest (acc ++ [b])

theorem wordLEBytes_length (w : Nat) : (wordLEBytes w).length = 8 := by
  simp [wordLEBytes]

theorem flatten_wordLEBytes_length :
    ∀ ws : List Nat, ((ws.map wordLEBytes).flatten).length = 8 * ws.length
  | [] => by simp
  | w :: ws => by
    simp only [List.map_cons, List.flatten_cons, List.length_append,
      wordLEBytes_length, flatten_wordLEBytes_length ws, List.length_cons]
    omega

theorem blake2bSum_length (data : List Nat) : (blake2bSum 32 data).length = 32 := by
  rw [blake2bSum, List.length_take, flatten_wordLEBytes_length,
    blakeRun_length (blakeChunks data) (blakeInitH 32) 0
      (chunksAux_ne_nil data [])]
  decide

/-- Claim C8: for every input string, `HashAndEncodeString` returns a nil
error together with the unpadded base64 URL encoding of the 32-byte
BLAKE2b digest of the string, a 43-character string, and it is
deterministic: equal inputs always yield equal outputs. -/
theorem hashAndEncodeString_ok_43_deterministic (s : String) :
    (∃ d, HashAndEncodeString s = Except.ok d ∧
      d = String.mk (rawURLEncode (blake2bSum 32 (strBytes s))) ∧
      d.length = 43) ∧
    (∀ t, s = t → HashAndEncodeString s = HashAndEncodeString t) := by
  constructor
  · refine ⟨String.mk (rawURLEncode (blake2bSum 32 (strBytes s))), rfl, rfl, ?_⟩
    show (rawURLEncode (blake2bSum 32 (strBytes s))).length = 43
    rw [rawURLEncode_length, blake2bSum_length]
  · intro t ht
    rw [ht]

theorem hashAndEncodeString_witness :
    HashAndEncodeString "abc" = HashAndEncodeString "abc" ∧
    ∃ d, HashAndEncodeString "abc" = Except.ok d ∧ d.length = 43 := by
  have h := hashAndEncodeString_ok_43_deterministic "abc"
  obtain ⟨⟨d, hd, _, hlen⟩, hdet⟩ := h
  exact ⟨hdet "abc" rfl, ⟨d, hd, hlen⟩⟩

/-! ## Claim theorems: lifecycle manager -/

theorem manageCloseRun_shutdown_id {s : MState} (cs : List Nat)
    (hsd : s.shutdown = true) : manageCloseRun s cs = s := by
  cases cs with
  | nil => rfl
  | cons c cs => simp [manageCloseRun, hsd]

theorem manageLifecycleRun_shutdown_id {s : MState} (xs : List Nat)
    (hsd : s.shutdown = true) : manageLifecycleRun s xs = s := by
  cases xs with
  | nil => rfl
  | cons x xs => simp [manageLifecycleRun, hsd]

theorem closers_manageInitRun (lc : Bool) (s : MState) (is : List Nat) :
    (manageInitRun lc s is).closers = s.closers := by
  induction is generalizing s with
  | nil => rfl
  | cons i is ih => simp [manageInitRun, ih, startInit]

theorem step_shutdown_frozen {s : MState} (e : Ev) (hsd : s.shutdown = true) :
    (step s e).closers = s.closers ∧ (step s e).shutdown = true := by
  cases e with
  | manageClose cs => rw [step, manageCloseRun_shutdown_id cs hsd]; exact ⟨rfl, hsd⟩
  | manageInit is =>
    exact ⟨closers_manageInitRun false s is, by rw [step, shutdown_manageInitRun]; exact hsd⟩
  | manageLifecycle xs => rw [step, manageLifecycleRun_shutdown_id xs hsd]; exact ⟨rfl, hsd⟩
  | close => rw [step, closeStep, if_pos hsd]; exact ⟨rfl, hsd⟩
  | initDone i r =>
    rw [step, initDoneStep]
    split <;> exact ⟨rfl, hsd⟩
  | closerDone c r =>
    rw [step, closerDoneStep]
    split <;> exact ⟨rfl, hsd⟩

theorem run_shutdown_frozen {s : MState} (evs : List Ev) (hsd : s.shutdown = true) :
    (run s evs).closers = s.closers ∧ (run s evs).shutdown = true := by
  induction evs generalizing s with
  | nil => exact ⟨rfl, hsd⟩
  | cons e evs ih =>
    obtain ⟨hc, hs⟩ := step_shutdown_frozen e hsd
    obtain ⟨hc2, hs2⟩ := ih hs
    exact ⟨hc2.trans hc, hs2⟩

theorem run_append (s : MState) (a b : List Ev) :
    run s (a ++ b) = run (run s a) b := by
  simp [run, List.foldl_append]

/-- Claim C1: when the manager's `Close` is called, every close function
collected via `ManageClose` before shutdown is run, each exactly once, in
parallel goroutines, and `Close` returns only after all of them have
completed, gated by the `stopwg` wait group and the `shutdown` channel
rendezvous.  Formally: (i) the `Close` rendezvous spawns every collected
close function at once, each in its own goroutine (`running` becomes the
whole collected queue); (ii) in any reachable post-shutdown state, the
gate on which `Close` returns (`stopwg = 0`) holds exactly when every
collected close function has finished exactly once. -/
theorem close_runs_all_collected_closers (evs : List Ev) :
    ((run initialMState evs).shutdown = false →
      (step (run initialMState evs) Ev.close).running =
        (run initialMState evs).closers) ∧
    ((run initialMState evs).shutdown = true →
      ((run initialMState evs).stopwg = 0 ↔
        ∀ c, (run initialMState evs).ranClosers.count c =
          (run initialMState evs).closers.count c)) := by
  constructor
  · intro hsd
    rw [step, closeStep, if_neg (by rw [hsd]; exact Bool.false_ne_true)]
  · intro hsd
    obtain ⟨_, h2, _, _, _⟩ := minv_reachable evs
    obtain ⟨hcount, hsw⟩ := h2 hsd
    constructor
    · intro h0 c
      have hrl : (run initialMState evs).running.length = 0 := by omega
      have hrn : (run initialMState evs).running = [] :=
        List.length_eq_zero.mp hrl
      have hcc := hcount c
      rw [hrn] at hcc
      simpa using hcc.symm
    · intro hall
      have hzero : ∀ c, (run initialMState evs).running.count c = 0 := by
        intro c
        have := hcount c
        have := hall c
        omega
      have hrn : (run initialMState evs).running = [] := by
        refine List.eq_nil_iff_forall_not_mem.mpr (fun c hc => ?_)
        have := List.count_pos_iff.mpr hc
        have := hzero c
        omega
      rw [hsw, hrn]
      rfl

theorem close_runs_all_collected_closers_witness :
    (run initialMState [Ev.manageClose [5], Ev.close, Ev.closerDone 5 0]).ranClosers.count 5 =
      (run initialMState [Ev.manageClose [5], Ev.close, Ev.closerDone 5 0]).closers.count 5 :=
  ((close_runs_all_collected_closers
      [Ev.manageClose [5], Ev.close, Ev.closerDone 5 0]).2
    (by decide)).mp (by decide) 5

theorem step_stripR (s : MState) (e : Ev) : step s (stripR e) = step s e := by
  cases e <;> rfl

/-- Claim C3: the lifecycle manager has no failure-handling policy.
`Initialize()` and `CloseFunc` return nothing, so a completion event's
payload — whatever value a managed hook computed, a failure included — is
invisible to the manager: the entire manager state after any trace,
including `stopwg` (the gate of `Close`) and `wg` (the gate of
`WG.Wait`), equals the state after the same trace with every hook result
erased.  Nothing is collected and nothing is reported. -/
theorem manager_ignores_hook_results (evs : List Ev) :
    run initialMState evs = run initialMState (evs.map stripR) ∧
    (run initialMState evs).stopwg =
      (run initialMState (evs.map stripR)).stopwg ∧
    (run initialMState evs).wg = (run initialMState (evs.map stripR)).wg := by
  have hgen : ∀ (l : List Ev) (s : MState), run s l = run s (l.map stripR) := by
    intro l
    induction l with
    | nil => intro s; rfl
    | cons e l ih =>
      intro s
      show run (step s e) l = run (step s (stripR e)) (l.map stripR)
      rw [step_stripR, ih]
  refine ⟨hgen evs initialMState, ?_, ?_⟩ <;> rw [hgen evs initialMState]

theorem manageInitRun_count (s : MState) (is : List Nat) (i : Nat) :
    ((manageInitRun false s is).started).count i = s.started.count i + is.count i := by
  induction is generalizing s with
  | nil => simp [manageInitRun]
  | cons a as ih =>
    rw [manageInitRun, ih]
    show (s.started ++ [a]).count i + as.count i =
      s.started.count i + (a :: as).count i
    rw [count_app_singleton, List.count_cons]
    rcases eq_or_ne a i with hai | hai
    · subst hai
      simp
      omega
    · simp [hai, Ne.symm hai]

/-- Claim C4: every item passed to `ManageInitialization` has its
`Initialize` started immediately, in its own goroutine, within that very
call, and invoked exactly once per occurrence (the count of started
`Initialize` goroutines grows by exactly the item's multiplicity in the
call); and the gate on which `WG.Wait` returns (`wg = 0`) holds in a
reachable state exactly when every managed `Initialize` call has
completed. -/
theorem manageInit_starts_once_wait_gates (evs : List Ev) :
    (∀ (s : MState) (is : List Nat) (i : Nat),
      ((manageInitRun false s is).started).count i =
        s.started.count i + is.count i) ∧
    ((run initialMState evs).wg = 0 ↔
      ∀ i, (run initialMState evs).doneInits.count i =
        (run initialMState evs).started.count i) := by
  refine ⟨manageInitRun_count, ?_⟩
  obtain ⟨_, _, h3, h4, _⟩ := minv_reachable evs
  constructor
  · intro h0 i
    have hrl : (run initialMState evs).runningInits.length = 0 := by omega
    have hrn : (run initialMState evs).runningInits = [] :=
      List.length_eq_zero.mp hrl
    have hcc := h4 i
    rw [hrn] at hcc
    simpa using hcc.symm
  · intro hall
    have hzero : ∀ i, (run initialMState evs).runningInits.count i = 0 := by
      intro i
      have := h4 i
      have := hall i
      omega
    have hrn : (run initialMState evs).runningInits = [] := by
      refine List.eq_nil_iff_forall_not_mem.mpr (fun i hi => ?_)
      have := List.count_pos_iff.mpr hi
      have := hzero i
      omega
    rw [h3, hrn]
    rfl

/-- Claim C5: the manager's coordinator has exactly the two control states
of its `shutdown` flag — running (`false`) and shutting down (`true`).
Only a `Close` event can change the flag; once `true` it stays `true`
under every event; and once shut down, the collected queue is frozen
forever: whatever a later `ManageClose` submits, the set of close
functions the manager ever runs stays bounded by what was collected
before shutdown, so a close function submitted after shutdown (one not in
the pre-shutdown queue) is never executed. -/
theorem manager_two_states_close_only_irreversible :
    (∀ (s : MState) (e : Ev), (step s e).shutdown = s.shutdown ∨ e = Ev.close) ∧
    (∀ (s : MState) (e : Ev), s.shutdown = true → (step s e).shutdown = true) ∧
    (∀ (evs evs' : List Ev) (cs : List Nat) (c : Nat),
      (run initialMState evs).shutdown = true →
      ((run (step (run initialMState evs) (Ev.manageClose cs)) evs').closers =
          (run initialMState evs).closers ∧
        (run (step (run initialMState evs) (Ev.manageClose cs)) evs').ranClosers.count c ≤
          (run initialMState evs).closers.count c)) := by
  refine ⟨?_, ?_, ?_⟩
  · intro s e
    cases e with
    | manageClose cs => exact Or.inl (shutdown_manageCloseRun s cs)
    | manageInit is => exact Or.inl (shutdown_manageInitRun false s is)
    | manageLifecycle xs => exact Or.inl (shutdown_manageLifecycleRun s xs)
    | close => exact Or.inr rfl
    | initDone i r =>
      refine Or.inl ?_
      rw [step, initDoneStep]
      split <;> rfl
    | closerDone c r =>
      refine Or.inl ?_
      rw [step, closerDoneStep]
      split <;> rfl
  · intro s e hsd
    exact (step_shutdown_frozen e hsd).2
  · intro evs evs' cs c hsd
    have hstep := step_shutdown_frozen (s := run initialMState evs)
      (Ev.manageClose cs) hsd
    have hrun := run_shutdown_frozen (s := step (run initialMState evs)
      (Ev.manageClose cs)) evs' hstep.2
    have hfinal : (run (step (run initialMState evs) (Ev.manageClose cs)) evs').closers =
        (run initialMState evs).closers := hrun.1.trans hstep.1
    refine ⟨hfinal, ?_⟩
    have hminv : MInv (run (step (run initialMState evs) (Ev.manageClose cs)) evs') := by
      have : run (step (run initialMState evs) (Ev.manageClose cs)) evs' =
          run initialMState (evs ++ Ev.manageClose cs :: evs') := by
        rw [run_append]
        rfl
      rw [this]
      exact minv_reachable (evs ++ Ev.manageClose cs :: evs')
    obtain ⟨_, h2, _, _, _⟩ := hminv
    obtain ⟨hcount, _⟩ := h2 hrun.2
    have := hcount c
    rw [hfinal] at this
    omega

theorem manager_two_states_witness :
    (run (step (run initialMState [Ev.close]) (Ev.manageClose [7])) []).ranClosers.count 7 ≤
      (run initialMState [Ev.close]).closers.count 7 :=
  ((manager_two_states_close_only_irreversible.2.2 [Ev.close] [] [7] 7 (by decide))).2

/-- Claim C10: for every item passed to `ManageLifecycle`
(`ManageConnection`), its close function is submitted to the close queue
before its initialization is started: in every reachable state, the
multiset of `Initialize` goroutines started on behalf of
`ManageLifecycle` is bounded by the collected close queue, so the manager
never starts such an item's `Initialize` while that item's close function
is not yet queued. -/
theorem lifecycle_queues_close_before_start (evs : List Ev) (x : Nat) :
    (run initialMState evs).lcStarted.count x ≤
      (run initialMState evs).closers.count x :=
  (minv_reachable evs).2.2.2.2 x
